import Mathlib

/-
Verification of the chunk-context translation orchestrator
(scripts/translate_md.py and scripts/utils/file.py).

The Python source is shallowly embedded: file contents are Strings,
the filesystem is an association list from (directory, name) paths to
contents, the two LLM backends are an oracle `String → Option String`
(payload ↦ returned text, `none` modelling a null response), and the
line-wrapping transform is an opaque parameter (an external collaborator
in the design).  All functions below are translated line by line from
the named source functions; contents are assumed to use "\n" newlines
(the scripts read and write UTF-8 text opened in universal-newline mode).
-/

set_option maxHeartbeats 1000000

/-! ### Python string primitives -/

/-- ASCII whitespace as recognised by Python `str.strip` / `str.isspace`. -/
def isPySpace (c : Char) : Bool :=
  c == ' ' || c == '\t' || c == '\n' || c == Char.ofNat 11 || c == Char.ofNat 12 ||
    c == Char.ofNat 13

/-- Python `str.strip()` on the character list. -/
def pyStripChars (l : List Char) : List Char :=
  ((l.dropWhile isPySpace).reverse.dropWhile isPySpace).reverse

/-- Python `str.strip()`. -/
def pyStrip (s : String) : String := ⟨pyStripChars s.data⟩

/-- Split a character list into lines, keeping the trailing newline of each
line, exactly as Python `file.readlines()` / iteration over a text file does
(for "\n"-terminated text). -/
def splitLinesKeepAux : List Char → List (List Char)
  | [] => []
  | c :: cs =>
    if c = '\n' then [c] :: splitLinesKeepAux cs
    else
      match splitLinesKeepAux cs with
      | [] => [[c]]
      | l :: ls => (c :: l) :: ls

/-- Python `readlines` on a file whose content is `s`. -/
def pyLines (s : String) : List String := (splitLinesKeepAux s.data).map (fun l => ⟨l⟩)

/-- Python slice `l[-n:] if len(l) >= n else l` (`n` a non-negative int).
Note `l[-0:]` is the whole list. -/
def sliceLastPy (n : Nat) (l : List α) : List α :=
  if n ≤ l.length then (if n = 0 then l else l.drop (l.length - n)) else l

/-- Python `suffix.endswith` check, `s.endswith(suffix)`. -/
def endsWithPy (s suffix : String) : Bool := suffix.data.isSuffixOf s.data

/-- Python `s.startswith('#')`. -/
def startsHash (s : String) : Bool :=
  match s.data with
  | '#' :: _ => true
  | _ => false

/-! ### Filesystem model -/

/-- A path: the containing directory plus the file name.  `pathlib`'s
`f.parent` is `dir`, `f.name` is `name`. -/
structure FPath where
  dir : String
  name : String
deriving DecidableEq

/-- The filesystem: an association list from paths to file contents. -/
abbrev FS := List (FPath × String)

/-- Read a file; `none` models `FileNotFoundError` / any read failure. -/
def readFS (fs : FS) (p : FPath) : Option String :=
  (fs.find? (fun e => e.1 == p)).map (fun e => e.2)

/-- `Path.exists()`. -/
def existsFS (fs : FS) (p : FPath) : Bool := (readFS fs p).isSome

/-- Write (create or overwrite) a file. -/
def writeFS (fs : FS) (p : FPath) (v : String) : FS :=
  (p, v) :: fs.filter (fun e => !(e.1 == p))

/-- `pathlib.PurePath.stem` on the character list of a name: the name
without its final suffix; a name with no dot, a leading-dot name, or a
trailing-dot name is its own stem. -/
def stemOfChars (l : List Char) : List Char :=
  match l.reverse.dropWhile (fun c => !(c == '.')), l.reverse.takeWhile (fun c => !(c == '.')) with
  | [], _ => l
  | _ :: a, b => if a = [] then l else if b = [] then l else a.reverse

/-- `pathlib.PurePath(name).stem`. -/
def stemOf (s : String) : String := ⟨stemOfChars s.data⟩

/-! ### Natural sort key (`natural_sort_key`, translate_md.py lines 171-183
and utils/file.py lines 5-16) -/

/-- One component of the Python sort key list: an `int` for a digit run,
a lowercased string for a non-digit run. -/
inductive KeyElem
  | str (cs : List Char)
  | num (v : Nat)
deriving DecidableEq

/-- Python `int(...)` of a non-empty decimal digit string. -/
def digitsVal (l : List Char) : Nat :=
  l.foldl (fun a c => 10 * a + (c.toNat - '0'.toNat)) 0

/-- `int(c) if c.isdigit() else c.lower()` applied to one run. -/
def runElem (run : List Char) : KeyElem :=
  if run ≠ [] ∧ run.all Char.isDigit then .num (digitsVal run)
  else .str (run.map Char.toLower)

/-- Python `re.split(r'(\d+)', s)`: alternating (possibly empty) non-digit
runs and (non-empty) digit runs, starting and ending with a non-digit run. -/
def reSplitDigits : List Char → List (List Char)
  | [] => [[]]
  | c :: cs =>
    match reSplitDigits cs with
    | [] => [[]]
    | r :: rs =>
      if c.isDigit then
        match r, rs with
        | [], d :: rest => [] :: (c :: d) :: rest
        | _, _ => [] :: [c] :: r :: rs
      else (c :: r) :: rs

/-- The sort key of a name, as a character-list computation. -/
def naturalKeyChars (l : List Char) : List KeyElem := (reSplitDigits l).map runElem

/-- `natural_sort_key(path)` applied to `path.name`. -/
def naturalSortKey (s : String) : List KeyElem := naturalKeyChars s.data

/-- Python `<` on two strings (code-point lexicographic). -/
def charListLt : List Char → List Char → Bool
  | [], [] => false
  | [], _ :: _ => true
  | _ :: _, [] => false
  | a :: as, b :: bs => if a < b then true else if b < a then false else charListLt as bs

/-- Python `<` on two key components.  Comparing an `int` with a `str`
raises `TypeError` in Python; keys produced by `natural_sort_key` are
compared position-by-position where the kinds always agree (even positions
are strings, odd positions ints), so the mixed case below is never
exercised by the embedded code. -/
def keyElemLt : KeyElem → KeyElem → Bool
  | .num a, .num b => a < b
  | .str a, .str b => charListLt a b
  | .num _, .str _ => false
  | .str _, .num _ => false

/-- Python `<` on two key lists (list lexicographic comparison). -/
def keyLtList : List KeyElem → List KeyElem → Bool
  | [], [] => false
  | [], _ :: _ => true
  | _ :: _, [] => false
  | a :: as, b :: bs =>
    if keyElemLt a b then true else if keyElemLt b a then false else keyLtList as bs

/-- Stable insertion of `x` into `l`: `x` goes after every element it is
not strictly below. -/
def pyInsert (lt : α → α → Bool) (x : α) : List α → List α
  | [] => [x]
  | y :: ys => if lt x y then x :: y :: ys else y :: pyInsert lt x ys

/-- Python `sorted`: a stable ascending sort by the strict comparison
`lt` (later elements are inserted after earlier tied ones). -/
def pySortBy (lt : α → α → Bool) (l : List α) : List α :=
  l.foldl (fun acc x => pyInsert lt x acc) []

/-! ### Dictionary loading (`load_txt_dictionary`, lines 59-109) -/

/-- Process the dictionary lines (already enumerated from 1): skip blank
and `#` lines, reject a line without `:` or with an empty term or empty
translations (the raised `ValueError`, carried as line number and stripped
line), and format each entry as `term -> translations`. -/
def dictEntriesAux : List (Nat × String) → Except (Nat × String) (List String)
  | [] => .ok []
  | (i, rawLine) :: rest =>
    let line := pyStrip rawLine
    if line = "" || startsHash line then dictEntriesAux rest
    else if !(line.data.contains ':') then .error (i, line)
    else
      let term := pyStrip ⟨line.data.takeWhile (fun c => !(c == ':'))⟩
      let translations := pyStrip ⟨(line.data.dropWhile (fun c => !(c == ':'))).tail⟩
      if term = "" || translations = "" then .error (i, line)
      else
        match dictEntriesAux rest with
        | .error e => .error e
        | .ok es => .ok ((term ++ " -> " ++ translations) :: es)

/-- The formatted dictionary block returned for a non-empty entry list. -/
def dictJoinBlock (entries : List String) : String :=
  String.intercalate "\n"
    (["\n## Translation Dictionary", "Use the following term translations:", "```"] ++
      entries ++ ["```\n"])

/-- `load_txt_dictionary` applied to the dictionary file content.  An error
is the `ValueError` raised for a malformed line. -/
def loadTxtDictionary (content : String) : Except (Nat × String) String :=
  match dictEntriesAux ((pyLines content).enumFrom 1) with
  | .error e => .error e
  | .ok [] => .ok ""
  | .ok es => .ok (dictJoinBlock es)

/-! ### Context extraction (`get_file_lines`, lines 186-207) -/

/-- `get_file_lines(file_path, num_lines, from_end)`: the `none` content
models any read failure, which is caught and degrades to `[]` with a
warning. -/
def getFileLinesModel (content : Option String) (numLines : Nat) (fromEnd : Bool) :
    List String :=
  match content with
  | none => []
  | some c =>
    let lines := pyLines c
    if fromEnd then sliceLastPy numLines lines
    else lines.take numLines

/-! ### Request assembly (`translate_file`, lines 244-293) -/

def prevCtxHeader : String :=
  "---\n## CONTEXT FROM PREVIOUS CHUNK (FOR REFERENCE ONLY - DO NOT TRANSLATE THIS SECTION)\nThe following lines are from the previous chunk to provide context.\nDO NOT translate this section, only use it for context.\n---\n\n"

def prevCtxFooter : String := "\n---\n## END OF PREVIOUS CHUNK CONTEXT\n---\n\n"

def nextCtxHeader : String :=
  "\n---\n## CONTEXT FROM NEXT CHUNK (FOR REFERENCE ONLY - DO NOT TRANSLATE THIS SECTION)\nThe following lines are from the next chunk to provide context.\nDO NOT translate this section, only use it for context.\n---\n\n"

def nextCtxFooter : String := "\n---\n## END OF NEXT CHUNK CONTEXT\n---\n"

def mainCtxHeader : String :=
  "---\n## MAIN CONTENT TO TRANSLATE\nTranslate ONLY this section below:\n---\n\n"

def mainCtxFooter : String := "\n---\n## END OF MAIN CONTENT\n---\n"

/-- The `context_prefix` built from the previous chunk (lines 252-265). -/
def ctxBefore (fs : FS) (contextLines : Int) (prevFile : Option FPath) : String :=
  match prevFile with
  | none => ""
  | some p =>
    if contextLines > 0 then
      let ls := getFileLinesModel (readFS fs p) contextLines.toNat true
      if ls = [] then "" else prevCtxHeader ++ String.join ls ++ prevCtxFooter
    else ""

/-- The `context_suffix` built from the next chunk (lines 267-280). -/
def ctxAfter (fs : FS) (contextLines : Int) (nextFile : Option FPath) : String :=
  match nextFile with
  | none => ""
  | some p =>
    if contextLines > 0 then
      let ls := getFileLinesModel (readFS fs p) contextLines.toNat false
      if ls = [] then "" else nextCtxHeader ++ String.join ls ++ nextCtxFooter
    else ""

/-- `content_with_context` (lines 282-293): wrap the raw chunk content in
markers only when at least one context side is non-empty. -/
def assembleContent (fs : FS) (contextLines : Int) (prevFile nextFile : Option FPath)
    (content : String) : String :=
  let cp := ctxBefore fs contextLines prevFile
  let cs := ctxAfter fs contextLines nextFile
  if cp = "" ∧ cs = "" then content
  else cp ++ mainCtxHeader ++ content ++ mainCtxFooter ++ cs

/-! ### Translation dispatch (`translate_with_claude` lines 112-139,
`translate_with_openai` lines 142-168) -/

/-- `translate_with_claude`: build the full prompt, call the backend, and
raise `ValueError("API returned empty translation")` (the `.error` case)
when the response text is null, empty, or strips to empty.  Returns the
payload actually sent together with the outcome. -/
def translateWithClaudeM (backend : String → Option String)
    (text prompt dictionary : String) : String × Except Unit String :=
  let fullPrompt := prompt ++ "\n" ++ dictionary ++ "\n## Text to Translate:\n\n" ++ text
  (fullPrompt,
    match backend fullPrompt with
    | none => .error ()
    | some t => if t = "" || pyStrip t = "" then .error () else .ok t)

/-- `translate_with_openai`: identical empty-result handling. -/
def translateWithOpenaiM (backend : String → Option String)
    (text prompt dictionary : String) : String × Except Unit String :=
  let fullPrompt := prompt ++ "\n" ++ dictionary ++ "\n## Text to Translate:\n\n" ++ text
  (fullPrompt,
    match backend fullPrompt with
    | none => .error ()
    | some t => if t = "" || pyStrip t = "" then .error () else .ok t)

inductive Provider
  | claude
  | openai
deriving DecidableEq

/-- The provider branch of `translate_file` (lines 314-329). -/
def dispatchModel (provider : Provider) (backend : String → Option String)
    (text prompt dictionary : String) : String × Except Unit String :=
  match provider with
  | .claude => translateWithClaudeM backend text prompt dictionary
  | .openai => translateWithOpenaiM backend text prompt dictionary

/-! ### One translation job (`translate_file`, lines 211-349) -/

inductive JobErr
  | dictFormat (lineNum : Nat) (line : String)
  | missingApiKey
  | emptyTranslation
deriving DecidableEq

/-- The CLI configuration relevant to the orchestrator. -/
structure Config where
  inputDir : String
  outputDir : Option String
  provider : Provider
  targetLang : String
  prompt : String
  contextLines : Int
  dict : Option String
  apiKeyPresent : Bool
  wrapEnabled : Bool
  lineWidth : Int

/-- Dictionary loading inside `translate_file` (lines 296-298): the empty
string when no dictionary path was given. -/
def loadDictModel (d : Option String) : Except (Nat × String) String :=
  match d with
  | none => .ok ""
  | some content => loadTxtDictionary content

/-- Outcome of one `translate_file` call: either the artifact (path and
final text) to write, or the raised error; plus the list of payloads that
were actually sent to the backend (empty when the job failed before the
API call). -/
structure JobOut where
  result : Except JobErr (FPath × String)
  dispatched : List String

/-- `translate_file`: read the chunk, build the context-wrapped payload,
load the dictionary, check the API key, dispatch, optionally wrap, and
name the artifact `{stem}_{target_lang}.md` inside `output_dir`. -/
def translateFileModel (cfg : Config) (wrapFn : String → String)
    (backend : String → Option String) (fs : FS) (inputFile : FPath)
    (outputDir : String) (prevFile nextFile : Option FPath) : JobOut :=
  let content := (readFS fs inputFile).getD ""
  let contentWithContext := assembleContent fs cfg.contextLines prevFile nextFile content
  match loadDictModel cfg.dict with
  | .error e => ⟨.error (.dictFormat e.1 e.2), []⟩
  | .ok dictionary =>
    if cfg.apiKeyPresent = false then ⟨.error .missingApiKey, []⟩
    else
      let out := dispatchModel cfg.provider backend contentWithContext cfg.prompt dictionary
      match out.2 with
      | .error _ => ⟨.error .emptyTranslation, [out.1]⟩
      | .ok translated =>
        let finalText :=
          if cfg.wrapEnabled && !(cfg.lineWidth == 0) then wrapFn translated else translated
        ⟨.ok (⟨outputDir, stemOf inputFile.name ++ "_" ++ cfg.targetLang ++ ".md"⟩, finalText),
          [out.1]⟩

/-! ### Batch orchestration (`main`, lines 352-638, directory mode) -/

/-- `input_path.glob("*.md")`: the `.md` files of `dir`, in filesystem
enumeration order. -/
def globMd (fs : FS) (dir : String) : List FPath :=
  (fs.map Prod.fst).filter (fun p => p.dir == dir && endsWithPy p.name ".md")

/-- `sorted(..., key=natural_sort_key)`. -/
def sortNatural (l : List FPath) : List FPath :=
  pySortBy (fun a b => keyLtList (naturalSortKey a.name) (naturalSortKey b.name)) l

/-- `all_md_files` (line 447). -/
def sortedMd (fs : FS) (dir : String) : List FPath := sortNatural (globMd fs dir)

/-- The two skip conditions of the completion check (lines 455-465): the
stem already carries the target-language suffix, or the sibling artifact
`{stem}_{target_lang}.md` exists in the chunk's own parent directory. -/
def skipChunk (fs : FS) (target : String) (f : FPath) : Bool :=
  endsWithPy (stemOf f.name) ("_" ++ target) ||
    existsFS fs ⟨f.dir, stemOf f.name ++ "_" ++ target ++ ".md"⟩

/-- `files_to_process` (lines 452-466). -/
def pendingOf (fs : FS) (dir target : String) : List FPath :=
  (sortedMd fs dir).filter (fun f => !skipChunk fs target f)

/-- `all_source_files` (lines 547-550): every `.md` file of the directory
whose stem does not end in the target suffix, naturally sorted. -/
def allSourceFiles (fs : FS) (dir target : String) : List FPath :=
  sortNatural ((globMd fs dir).filter (fun f => !endsWithPy (stemOf f.name) ("_" ++ target)))

/-- Previous/next neighbor determination for one chunk (lines 538-579);
`none` on either side when the chunk is first/last or was not found. -/
def neighborsOf (fs : FS) (dir target : String) (contextLines : Int) (f : FPath) :
    Option FPath × Option FPath :=
  if contextLines > 0 then
    let all := allSourceFiles fs dir target
    match all.findIdx? (fun x => x == f) with
    | none => (none, none)
    | some i =>
      ((if 0 < i then all[i - 1]? else none),
        (if i + 1 < all.length then all[i + 1]? else none))
  else (none, none)

/-- The running state of the per-chunk loop (lines 520-624): the live
filesystem, the `processed` and `failed` tallies, every payload sent to a
backend so far, and the per-chunk success flags in batch order. -/
structure BatchState where
  fs : FS
  processed : Nat
  failed : Nat
  dispatched : List String
  results : List Bool

/-- One iteration of the loop (lines 524-624): pick the output directory
(defaulting to the chunk's own parent), compute the neighbors, run
`translate_file`, and on success write the artifact; any raised error is
caught and counted as failed. -/
def runChunk (cfg : Config) (wrapFn : String → String) (backend : String → Option String)
    (st : BatchState) (f : FPath) : BatchState :=
  let outputDir := cfg.outputDir.getD f.dir
  let nb := neighborsOf st.fs cfg.inputDir cfg.targetLang cfg.contextLines f
  let out := translateFileModel cfg wrapFn backend st.fs f outputDir nb.1 nb.2
  match out.result with
  | .ok pv =>
    ⟨writeFS st.fs pv.1 pv.2, st.processed + 1, st.failed, st.dispatched ++ out.dispatched,
      st.results ++ [true]⟩
  | .error _ =>
    ⟨st.fs, st.processed, st.failed + 1, st.dispatched ++ out.dispatched,
      st.results ++ [false]⟩

/-- The observable outcome of one directory-mode run of `main`. -/
structure RunResult where
  fs : FS
  processed : Nat
  failed : Nat
  dispatched : List String
  results : List Bool
  exitCode : Nat

/-- Directory mode of `main` (lines 445-638): no `.md` files is an error
exit; zero pending chunks exits 0 before dispatching anything; otherwise
the loop runs over every pending chunk and the exit status is nonzero
exactly when `failed > 0`. -/
def runBatch (cfg : Config) (wrapFn : String → String) (backend : String → Option String)
    (fs₀ : FS) : RunResult :=
  if sortedMd fs₀ cfg.inputDir = [] then ⟨fs₀, 0, 0, [], [], 1⟩
  else
    let pending := pendingOf fs₀ cfg.inputDir cfg.targetLang
    if pending = [] then ⟨fs₀, 0, 0, [], [], 0⟩
    else
      let fin := pending.foldl (runChunk cfg wrapFn backend) ⟨fs₀, 0, 0, [], []⟩
      ⟨fin.fs, fin.processed, fin.failed, fin.dispatched, fin.results,
        if 0 < fin.failed then 1 else 0⟩

/-- `{source_stem}_{target_lang}.md`, the deterministic artifact name of
`translate_file` (line 339). -/
def artifactName (name target : String) : String :=
  stemOf name ++ "_" ++ target ++ ".md"

/-! ### Helper lemmas -/

theorem ctxBefore_empty_of (fs : FS) (contextLines : Int) (prevFile : Option FPath)
    (h : contextLines ≤ 0 ∨ prevFile = none) : ctxBefore fs contextLines prevFile = "" := by
  rcases h with h | h
  · cases prevFile with
    | none => rfl
    | some p => simp [ctxBefore, not_lt.mpr h]
  · subst h; rfl

theorem ctxAfter_empty_of (fs : FS) (contextLines : Int) (nextFile : Option FPath)
    (h : contextLines ≤ 0 ∨ nextFile = none) : ctxAfter fs contextLines nextFile = "" := by
  rcases h with h | h
  · cases nextFile with
    | none => rfl
    | some p => simp [ctxAfter, not_lt.mpr h]
  · subst h; rfl

/-! ### Claim C5 -/

/-- Claim C5: for every chunk, when `context_lines` is 0 or lower (or the
chunk has no previous and no next neighbor), the assembled payload — the
`content_with_context` string handed to the provider call — is byte-identical
to the chunk's raw file content: no context, main-content, or other wrapper
text is added. -/
theorem c5_no_context_payload_identity (fs : FS) (contextLines : Int)
    (prevFile nextFile : Option FPath) (content : String)
    (h : contextLines ≤ 0 ∨ (prevFile = none ∧ nextFile = none)) :
    assembleContent fs contextLines prevFile nextFile content = content := by
  have hp : ctxBefore fs contextLines prevFile = "" := by
    rcases h with h | h
    · exact ctxBefore_empty_of fs contextLines prevFile (Or.inl h)
    · exact ctxBefore_empty_of fs contextLines prevFile (Or.inr h.1)
  have hn : ctxAfter fs contextLines nextFile = "" := by
    rcases h with h | h
    · exact ctxAfter_empty_of fs contextLines nextFile (Or.inl h)
    · exact ctxAfter_empty_of fs contextLines nextFile (Or.inr h.2)
  simp [assembleContent, hp, hn]

/-- Witness for C5: a chunk with a previous neighbor on disk but
`context_lines = 0` is sent verbatim. -/
theorem c5_no_context_payload_identity_witness :
    assembleContent [(⟨"in", "c0.md"⟩, "before\n")] 0 (some ⟨"in", "c0.md"⟩) none "hola\n" =
      "hola\n" :=
  c5_no_context_payload_identity [(⟨"in", "c0.md"⟩, "before\n")] 0 (some ⟨"in", "c0.md"⟩) none
    "hola\n" (Or.inl (by decide))

/-! ### Claim C2 -/

/-- Modelled from the spec wording of claim C2: filter the previous
chunk's lines down to the non-empty (non-blank after stripping) ones, then
take the last `min(N, count)` of those.  This is what the claim asserts
the extracted prefix context to be; it is compared against the code's
`get_file_lines(prev_file, context_lines, from_end=True)`. -/
def specPrefixLines (content : String) (n : Nat) : List String :=
  sliceLastPy n ((pyLines content).filter (fun l => !(pyStrip l == "")))

/-- Counterexample to claim C2: for a previous chunk reading
`"a\n\nb\n"` and `context_lines = 2`, the code's extracted prefix context
is the last two RAW lines `["\n", "b\n"]` — it contains the empty line —
while the claimed extraction (last two non-empty lines) is
`["a\n", "b\n"]`.  Empty lines are NOT filtered out of the payload
context; only the console preview filters them. -/
theorem c2_counterexample :
    getFileLinesModel (some "a\n\nb\n") 2 true = ["\n", "b\n"] ∧
    specPrefixLines "a\n\nb\n" 2 = ["a\n", "b\n"] ∧
    getFileLinesModel (some "a\n\nb\n") 2 true ≠ specPrefixLines "a\n\nb\n" 2 := by
  refine ⟨by decide, by decide, by decide⟩

/-- Claim C2 as amended: for every previous chunk and every
`context_lines` N > 0, the extracted prefix context consists of exactly
the last `min(N, number of lines)` RAW lines of the previous chunk's
content (empty lines included, no filtering); the result is a suffix of
the chunk's lines, never pads to N, and extraction never errors (a read
failure yields `[]`). -/
theorem c2_amended (content : String) (n : Nat) (h : 0 < n) :
    getFileLinesModel (some content) n true =
      (if n ≤ (pyLines content).length then
        (pyLines content).drop ((pyLines content).length - n)
      else pyLines content) ∧
    (getFileLinesModel (some content) n true).length = min n (pyLines content).length ∧
    List.IsSuffix (getFileLinesModel (some content) n true) (pyLines content) ∧
    getFileLinesModel none n true = [] := by
  have hn : n ≠ 0 := Nat.pos_iff_ne_zero.mp h
  have heq : getFileLinesModel (some content) n true =
      (if n ≤ (pyLines content).length then
        (pyLines content).drop ((pyLines content).length - n)
      else pyLines content) := by
    simp only [getFileLinesModel, sliceLastPy, if_neg hn, if_true]
  refine ⟨heq, ?_, ?_, rfl⟩
  · rw [heq]
    by_cases hle : n ≤ (pyLines content).length
    · rw [if_pos hle]
      simp [Nat.sub_sub_self hle, Nat.min_eq_left hle]
    · rw [if_neg hle]
      exact (Nat.min_eq_right (Nat.le_of_lt (Nat.lt_of_not_le hle))).symm
  · rw [heq]
    by_cases hle : n ≤ (pyLines content).length
    · rw [if_pos hle]; exact List.drop_suffix _ _
    · rw [if_neg hle]

/-- Witness for C2's amended statement: a previous chunk of 3 (non-empty)
lines with `context_lines = 5` yields exactly those 3 lines. -/
theorem c2_amended_witness :
    (getFileLinesModel (some "x\ny\nz\n") 5 true).length = min 5 (pyLines "x\ny\nz\n").length ∧
    getFileLinesModel (some "x\ny\nz\n") 5 true = ["x\n", "y\n", "z\n"] :=
  ⟨(c2_amended "x\ny\nz\n" 5 (by decide)).2.1, by decide⟩

/-! ### Claim C4 -/

/-- Claim C4: in directory mode the completion check for a chunk tests the
existence of `{stem}_{target_lang}.md` only in the chunk's own parent
directory (`f.dir`), and the classification of a chunk as pending is
independent of the configured output directory: the pending list computed
by the orchestrator is literally the same function for every value of
`outputDir`. -/
theorem c4_completion_check_ignores_output_dir :
    (∀ (cfg : Config) (fs : FS) (o : Option String),
      pendingOf fs ({ cfg with outputDir := o }).inputDir ({ cfg with outputDir := o }).targetLang
        = pendingOf fs cfg.inputDir cfg.targetLang) ∧
    (∀ (fs : FS) (dir target : String) (f : FPath),
      f ∈ pendingOf fs dir target ↔
        f ∈ sortedMd fs dir ∧
          endsWithPy (stemOf f.name) ("_" ++ target) = false ∧
          existsFS fs ⟨f.dir, stemOf f.name ++ "_" ++ target ++ ".md"⟩ = false) := by
  constructor
  · intro cfg fs o; rfl
  · intro fs dir target f
    simp only [pendingOf, List.mem_filter, skipChunk, Bool.not_eq_true', Bool.or_eq_false_iff]

/-! ### Claim C9 -/

/-- The code's empty-result test `not text or not text.strip()` on an
optional backend response. -/
def blankOpt (r : Option String) : Bool :=
  match r with
  | none => true
  | some t => t = "" || pyStrip t = ""

theorem pyStripChars_eq_nil_iff (l : List Char) :
    pyStripChars l = [] ↔ l.all isPySpace = true := by
  unfold pyStripChars
  rw [List.reverse_eq_nil_iff, List.dropWhile_eq_nil_iff]
  constructor
  · intro h
    rw [List.all_eq_true]
    intro x hx
    rcases (by
      conv at hx => rw [← List.takeWhile_append_dropWhile (p := isPySpace) (l := l)]
      exact List.mem_append.mp hx) with hx' | hx'
    · exact List.mem_takeWhile_imp hx'
    · exact h x (List.mem_reverse.mpr hx')
  · intro h x hx
    exact (List.all_eq_true.mp h) x ((List.dropWhile_sublist _).subset (List.mem_reverse.mp hx))

theorem pyStrip_eq_empty_iff (t : String) : pyStrip t = "" ↔ t.data.all isPySpace = true := by
  constructor
  · intro h
    have hd : (pyStrip t).data = [] := by rw [h]
    exact (pyStripChars_eq_nil_iff t.data).mp hd
  · intro h
    exact String.ext ((pyStripChars_eq_nil_iff t.data).mpr h)

/-- Claim C9: for every dispatch (both the Claude and the OpenAI backend),
if the backend returns a null, blank, or whitespace-only result the
dispatcher raises the empty-translation error, and if the result contains
any non-whitespace character it is returned unchanged without raising
(a raises-iff condition); and under a backend whose responses are always
blank no artifact is ever written and the job is counted failed. -/
theorem c9_empty_translation_raises_iff :
    (∀ (backend : String → Option String) (text prompt dictionary : String),
      (translateWithClaudeM backend text prompt dictionary).2 =
        match backend (translateWithClaudeM backend text prompt dictionary).1 with
        | none => .error ()
        | some t => if blankOpt (some t) = true then .error () else .ok t) ∧
    (∀ (backend : String → Option String) (text prompt dictionary : String),
      (translateWithOpenaiM backend text prompt dictionary).2 =
        match backend (translateWithOpenaiM backend text prompt dictionary).1 with
        | none => .error ()
        | some t => if blankOpt (some t) = true then .error () else .ok t) ∧
    (∀ t : String, blankOpt (some t) = t.data.all isPySpace) ∧
    (∀ (cfg : Config) (wrapFn : String → String) (backend : String → Option String)
        (st : BatchState) (f : FPath),
      (∀ p, blankOpt (backend p) = true) →
      (runChunk cfg wrapFn backend st f).fs = st.fs ∧
      (runChunk cfg wrapFn backend st f).results = st.results ++ [false]) := by
  refine ⟨fun backend text prompt dictionary => rfl, fun backend text prompt dictionary => rfl,
    ?_, ?_⟩
  · intro t
    simp only [blankOpt]
    by_cases h : t.data.all isPySpace = true
    · rw [h, Bool.or_eq_true]
      right
      exact decide_eq_true ((pyStrip_eq_empty_iff t).mpr h)
    · rw [Bool.not_eq_true] at h
      rw [h, Bool.or_eq_false_iff]
      constructor
      · by_cases he : t = ""
        · exact absurd h (by subst he; decide)
        · exact decide_eq_false he
      · refine decide_eq_false ?_
        intro hs
        rw [(pyStrip_eq_empty_iff t).mp hs] at h
        exact Bool.noConfusion h
  · intro cfg wrapFn backend st f hb
    unfold runChunk translateFileModel
    cases hld : loadDictModel cfg.dict with
    | error e => simp
    | ok dictionary =>
      simp only
      by_cases hkey : cfg.apiKeyPresent = false
      · simp [hkey]
      · simp only [hkey, if_false]
        have hout : ∀ text, (dispatchModel cfg.provider backend text cfg.prompt dictionary).2 =
            Except.error () := by
          intro text
          cases cfg.provider with
          | claude =>
            simp only [dispatchModel, translateWithClaudeM]
            have hblank :=
              hb (cfg.prompt ++ "\n" ++ dictionary ++ "\n## Text to Translate:\n\n" ++ text)
            cases hbe : backend
                (cfg.prompt ++ "\n" ++ dictionary ++ "\n## Text to Translate:\n\n" ++ text) with
            | none => rfl
            | some t =>
              rw [hbe] at hblank
              simp only [blankOpt] at hblank
              simp [hblank]
          | openai =>
            simp only [dispatchModel, translateWithOpenaiM]
            have hblank :=
              hb (cfg.prompt ++ "\n" ++ dictionary ++ "\n## Text to Translate:\n\n" ++ text)
            cases hbe : backend
                (cfg.prompt ++ "\n" ++ dictionary ++ "\n## Text to Translate:\n\n" ++ text) with
            | none => rfl
            | some t =>
              rw [hbe] at hblank
              simp only [blankOpt] at hblank
              simp [hblank]
        rw [hout]
        simp

/-- Witness for C9: a backend that always answers with whitespace makes a
job fail with no artifact written. -/
theorem c9_empty_translation_raises_iff_witness :
    (runChunk ⟨"in", none, .claude, "French", "P", 0, none, true, false, 120⟩ id
        (fun _ => some " \n ") ⟨[(⟨"in", "c1.md"⟩, "one\n")], 0, 0, [], []⟩
        ⟨"in", "c1.md"⟩).fs = [(⟨"in", "c1.md"⟩, "one\n")] ∧
    (runChunk ⟨"in", none, .claude, "French", "P", 0, none, true, false, 120⟩ id
        (fun _ => some " \n ") ⟨[(⟨"in", "c1.md"⟩, "one\n")], 0, 0, [], []⟩
        ⟨"in", "c1.md"⟩).results = [] ++ [false] :=
  c9_empty_translation_raises_iff.2.2.2 ⟨"in", none, .claude, "French", "P", 0, none, true, false,
    120⟩ id (fun _ => some " \n ") ⟨[(⟨"in", "c1.md"⟩, "one\n")], 0, 0, [], []⟩ ⟨"in", "c1.md"⟩
    (by
      intro p
      show blankOpt (some " \n ") = true
      decide)

/-! ### The per-chunk loop: shape lemmas -/

theorem runChunk_fields (cfg : Config) (wrapFn : String → String)
    (backend : String → Option String) (st : BatchState) (f : FPath) :
    ∃ b : Bool,
      (runChunk cfg wrapFn backend st f).results = st.results ++ [b] ∧
      (runChunk cfg wrapFn backend st f).processed = st.processed + (if b then 1 else 0) ∧
      (runChunk cfg wrapFn backend st f).failed = st.failed + (if b then 0 else 1) := by
  unfold runChunk
  cases hres : (translateFileModel cfg wrapFn backend st.fs f (cfg.outputDir.getD f.dir)
      (neighborsOf st.fs cfg.inputDir cfg.targetLang cfg.contextLines f).1
      (neighborsOf st.fs cfg.inputDir cfg.targetLang cfg.contextLines f).2).result with
  | ok pv => exact ⟨true, by simp [hres], by simp [hres], by simp [hres]⟩
  | error e => exact ⟨false, by simp [hres], by simp [hres], by simp [hres]⟩

theorem foldl_runChunk_tally (cfg : Config) (wrapFn : String → String)
    (backend : String → Option String) :
    ∀ (l : List FPath) (st : BatchState),
      ∃ rs : List Bool,
        (l.foldl (runChunk cfg wrapFn backend) st).results = st.results ++ rs ∧
        rs.length = l.length ∧
        (l.foldl (runChunk cfg wrapFn backend) st).processed = st.processed + rs.count true ∧
        (l.foldl (runChunk cfg wrapFn backend) st).failed = st.failed + rs.count false := by
  intro l
  induction l with
  | nil => exact fun st => ⟨[], by simp, by simp, by simp, by simp⟩
  | cons f t ih =>
    intro st
    obtain ⟨b, hr, hp, hf⟩ := runChunk_fields cfg wrapFn backend st f
    obtain ⟨rs, ihr, ihl, ihp, ihf⟩ := ih (runChunk cfg wrapFn backend st f)
    refine ⟨b :: rs, ?_, ?_, ?_, ?_⟩
    · rw [List.foldl_cons, ihr, hr]; simp
    · simp [ihl]
    · rw [List.foldl_cons, ihp, hp]
      cases b <;> (simp [List.count_cons]; try omega)
    · rw [List.foldl_cons, ihf, hf]
      cases b <;> (simp [List.count_cons]; try omega)

/-! ### Claim C6 -/

def c6Fs : FS :=
  [(⟨"in", "c1.md"⟩, "one\n"), (⟨"in", "c2.md"⟩, "two\n"), (⟨"in", "c3.md"⟩, "three\n")]

def c6Cfg : Config := ⟨"in", none, .claude, "French", "P", 0, none, true, false, 120⟩

/-- A backend configured to return an empty string exactly for chunk 2's
payload and a translation for everything else. -/
def c6Backend : String → Option String :=
  fun p => if p = "P\n\n## Text to Translate:\n\ntwo\n" then some "" else some "T"

/-- Claim C6: a failure in one chunk's job is caught and counted as failed
but does not abort the loop — in every run the number of attempted chunks
equals the number of pending chunks and the failure tally counts exactly
the failed attempts; in particular, for a 3-chunk batch where only chunk
2's translation returns an empty string, chunks 1 and 3 still produce
artifacts and the aggregate failure count equals 1. -/
theorem c6_partial_failure_isolation :
    (∀ (cfg : Config) (wrapFn : String → String) (backend : String → Option String) (fs : FS),
      (runBatch cfg wrapFn backend fs).results.length =
        (pendingOf fs cfg.inputDir cfg.targetLang).length ∧
      (runBatch cfg wrapFn backend fs).failed =
        (runBatch cfg wrapFn backend fs).results.count false) ∧
    (runBatch c6Cfg id c6Backend c6Fs).failed = 1 ∧
    (runBatch c6Cfg id c6Backend c6Fs).results = [true, false, true] ∧
    existsFS (runBatch c6Cfg id c6Backend c6Fs).fs ⟨"in", "c1_French.md"⟩ = true ∧
    existsFS (runBatch c6Cfg id c6Backend c6Fs).fs ⟨"in", "c3_French.md"⟩ = true ∧
    existsFS (runBatch c6Cfg id c6Backend c6Fs).fs ⟨"in", "c2_French.md"⟩ = false := by
  refine ⟨?_, by decide, by decide, by decide, by decide, by decide⟩
  intro cfg wrapFn backend fs
  by_cases h1 : sortedMd fs cfg.inputDir = []
  · constructor
    · simp [runBatch, h1, pendingOf]
    · simp [runBatch, h1]
  · by_cases h2 : pendingOf fs cfg.inputDir cfg.targetLang = []
    · constructor
      · simp [runBatch, h1, h2]
      · simp [runBatch, h1, h2]
    · obtain ⟨rs, hr, hl, hp, hf⟩ := foldl_runChunk_tally cfg wrapFn backend
        (pendingOf fs cfg.inputDir cfg.targetLang) ⟨fs, 0, 0, [], []⟩
      constructor
      · simp only [runBatch, h1, h2, if_neg, if_false]
        simp only [hr]
        simpa using hl
      · simp only [runBatch, h1, h2, if_neg, if_false]
        simp only [hr, hf]
        simp

/-! ### Claim C8 -/

/-- Claim C8: for a directory that does contain markdown files, the
process exit status is 0 exactly when every attempted job in the batch
succeeded — including the degenerate case of zero pending chunks, which
exits 0 without dispatching any job — and is nonzero as soon as one job
fails.  (A directory with no `.md` files at all is rejected up front with
exit status 1 before any batch exists.) -/
theorem c8_exit_status (cfg : Config) (wrapFn : String → String)
    (backend : String → Option String) (fs : FS)
    (h : sortedMd fs cfg.inputDir ≠ []) :
    ((runBatch cfg wrapFn backend fs).exitCode = 0 ↔
      false ∉ (runBatch cfg wrapFn backend fs).results) ∧
    (pendingOf fs cfg.inputDir cfg.targetLang = [] →
      (runBatch cfg wrapFn backend fs).exitCode = 0 ∧
      (runBatch cfg wrapFn backend fs).dispatched = []) := by
  by_cases h2 : pendingOf fs cfg.inputDir cfg.targetLang = []
  · constructor
    · simp [runBatch, h, h2]
    · intro hp
      simp [runBatch, h, h2]
  · refine ⟨?_, fun hp => absurd hp h2⟩
    obtain ⟨rs, hr, hl, hp, hf⟩ := foldl_runChunk_tally cfg wrapFn backend
      (pendingOf fs cfg.inputDir cfg.targetLang) ⟨fs, 0, 0, [], []⟩
    simp only [runBatch, h, h2, if_neg, if_false]
    simp only [hr, hf]
    simp only [List.nil_append, Nat.zero_add]
    constructor
    · intro hz
      rw [← List.count_eq_zero]
      by_cases hcount : rs.count false = 0
      · exact hcount
      · exfalso
        rw [if_pos (Nat.pos_of_ne_zero hcount)] at hz
        exact one_ne_zero hz
    · intro hmem
      rw [List.count_eq_zero.mpr hmem]
      simp

/-- Witness for C8: a batch of one chunk whose translation succeeds exits
with status 0, and a batch whose every chunk is already translated exits 0
with zero dispatches. -/
theorem c8_exit_status_witness :
    ((runBatch ⟨"in", none, .claude, "French", "P", 0, none, true, false, 120⟩ id
        (fun _ => some "T") [(⟨"in", "c1.md"⟩, "one\n")]).exitCode = 0 ↔
      false ∉ (runBatch ⟨"in", none, .claude, "French", "P", 0, none, true, false, 120⟩ id
        (fun _ => some "T") [(⟨"in", "c1.md"⟩, "one\n")]).results) ∧
    ((runBatch ⟨"in", none, .claude, "French", "P", 0, none, true, false, 120⟩ id
        (fun _ => some "T")
        [(⟨"in", "c1.md"⟩, "one\n"), (⟨"in", "c1_French.md"⟩, "done\n")]).exitCode = 0 ∧
      (runBatch ⟨"in", none, .claude, "French", "P", 0, none, true, false, 120⟩ id
        (fun _ => some "T")
        [(⟨"in", "c1.md"⟩, "one\n"), (⟨"in", "c1_French.md"⟩, "done\n")]).dispatched = []) :=
  ⟨(c8_exit_status ⟨"in", none, .claude, "French", "P", 0, none, true, false, 120⟩ id
      (fun _ => some "T") [(⟨"in", "c1.md"⟩, "one\n")] (by decide)).1,
   (c8_exit_status ⟨"in", none, .claude, "French", "P", 0, none, true, false, 120⟩ id
      (fun _ => some "T") [(⟨"in", "c1.md"⟩, "one\n"), (⟨"in", "c1_French.md"⟩, "done\n")]
      (by decide)).2 (by decide)⟩

/-! ### Claim C1 -/

theorem runChunk_dict_error (cfg : Config) (wrapFn : String → String)
    (backend : String → Option String) (st : BatchState) (f : FPath) (d : String)
    (e : Nat × String) (hd : cfg.dict = some d) (he : loadTxtDictionary d = .error e) :
    runChunk cfg wrapFn backend st f =
      ⟨st.fs, st.processed, st.failed + 1, st.dispatched, st.results ++ [false]⟩ := by
  simp [runChunk, translateFileModel, loadDictModel, hd, he]

theorem foldl_runChunk_dict_error (cfg : Config) (wrapFn : String → String)
    (backend : String → Option String) (d : String) (e : Nat × String)
    (hd : cfg.dict = some d) (he : loadTxtDictionary d = .error e) :
    ∀ (l : List FPath) (st : BatchState),
      l.foldl (runChunk cfg wrapFn backend) st =
        ⟨st.fs, st.processed, st.failed + l.length, st.dispatched,
          st.results ++ List.replicate l.length false⟩ := by
  intro l
  induction l with
  | nil => intro st; simp
  | cons f t ih =>
    intro st
    rw [List.foldl_cons, runChunk_dict_error cfg wrapFn backend st f d e hd he, ih]
    simp only [List.replicate_succ, List.length_cons, BatchState.mk.injEq, true_and, and_true,
      List.append_assoc, List.singleton_append]
    omega

def c1Fs : FS := [(⟨"in", "c1.md"⟩, "one\n"), (⟨"in", "c2.md"⟩, "two\n")]

def c1Cfg : Config :=
  ⟨"in", none, .claude, "French", "P", 0, some "badline\n", true, false, 120⟩

/-- Counterexample to claim C1: with a malformed dictionary (a line with
no `:` separator) and two pending chunks, the batch does NOT abort before
dispatch with a single batch-level error — the per-chunk loop attempts
BOTH chunks, each one's dictionary error is absorbed by the per-chunk
failure handling (`failed = 2`, `results = [false, false]`).  The claim's
"zero jobs dispatched" half does hold (no backend call is ever made), but
its "the error is not absorbed into per-chunk failure handling" half is
false. -/
theorem c1_counterexample :
    (runBatch c1Cfg id (fun _ => some "GOOD") c1Fs).dispatched = [] ∧
    (runBatch c1Cfg id (fun _ => some "GOOD") c1Fs).results = [false, false] ∧
    (runBatch c1Cfg id (fun _ => some "GOOD") c1Fs).failed = 2 ∧
    (runBatch c1Cfg id (fun _ => some "GOOD") c1Fs).exitCode = 1 := by
  refine ⟨by decide, by decide, by decide, by decide⟩

/-- Claim C1 as amended: if the dictionary file contains a malformed line
(no `:` separator, or empty term/translation), then — because the
dictionary is re-loaded inside each job, within the per-chunk exception
handler — every pending chunk is still attempted, every attempt fails with
the dictionary format error before its backend call, zero payloads are
dispatched to any backend, no file is written, and the run exits nonzero
whenever there was any pending chunk. -/
theorem c1_amended (cfg : Config) (wrapFn : String → String)
    (backend : String → Option String) (fs : FS) (d : String) (e : Nat × String)
    (hd : cfg.dict = some d) (he : loadTxtDictionary d = .error e) :
    (runBatch cfg wrapFn backend fs).dispatched = [] ∧
    (runBatch cfg wrapFn backend fs).processed = 0 ∧
    (runBatch cfg wrapFn backend fs).failed = (pendingOf fs cfg.inputDir cfg.targetLang).length ∧
    (runBatch cfg wrapFn backend fs).fs = fs ∧
    (pendingOf fs cfg.inputDir cfg.targetLang ≠ [] →
      (runBatch cfg wrapFn backend fs).exitCode = 1) := by
  by_cases h1 : sortedMd fs cfg.inputDir = []
  · refine ⟨by simp [runBatch, h1], by simp [runBatch, h1], ?_, by simp [runBatch, h1], ?_⟩
    · simp [runBatch, h1, pendingOf]
    · intro hne
      exact absurd (by simp [pendingOf, h1]) hne
  · by_cases h2 : pendingOf fs cfg.inputDir cfg.targetLang = []
    · refine ⟨by simp [runBatch, h1, h2], by simp [runBatch, h1, h2], ?_,
        by simp [runBatch, h1, h2], fun hne => absurd h2 hne⟩
      simp [runBatch, h1, h2]
    · have hfold := foldl_runChunk_dict_error cfg wrapFn backend d e hd he
        (pendingOf fs cfg.inputDir cfg.targetLang) ⟨fs, 0, 0, [], []⟩
      refine ⟨?_, ?_, ?_, ?_, ?_⟩ <;>
        simp [runBatch, h1, h2, hfold,
          List.length_pos.mpr h2]

/-- Witness for C1's amended statement: one pending chunk plus a
separator-free dictionary line gives zero dispatches, zero processed and
one failed job. -/
theorem c1_amended_witness :
    (runBatch ⟨"in", none, .claude, "French", "P", 0, some "badline\n", true, false, 120⟩ id
      (fun _ => some "GOOD") [(⟨"in", "c1.md"⟩, "one\n")]).dispatched = [] ∧
    (runBatch ⟨"in", none, .claude, "French", "P", 0, some "badline\n", true, false, 120⟩ id
      (fun _ => some "GOOD") [(⟨"in", "c1.md"⟩, "one\n")]).processed = 0 :=
  ⟨(c1_amended ⟨"in", none, .claude, "French", "P", 0, some "badline\n", true, false, 120⟩ id
      (fun _ => some "GOOD") [(⟨"in", "c1.md"⟩, "one\n")] "badline\n" (1, "badline") rfl rfl).1,
   (c1_amended ⟨"in", none, .claude, "French", "P", 0, some "badline\n", true, false, 120⟩ id
      (fun _ => some "GOOD") [(⟨"in", "c1.md"⟩, "one\n")] "badline\n" (1, "badline") rfl rfl).2.1⟩

/-! ### Claim C10 -/

theorem dropWhile_head_false {α : Type} (p : α → Bool) :
    ∀ (l : List α) (c : α) (cs : List α), l.dropWhile p = c :: cs → p c = false := by
  intro l
  induction l with
  | nil => intro c cs h; simp [List.dropWhile] at h
  | cons a as ih =>
    intro c cs h
    rw [List.dropWhile_cons] at h
    by_cases hp : p a = true
    · rw [if_pos hp] at h
      exact ih c cs h
    · rw [if_neg hp] at h
      injection h with h1 h2
      subst h1
      exact Bool.eq_false_iff.mpr hp

theorem stemOfChars_cases (l : List Char) :
    stemOfChars l = l ∨
      ∃ a b : List Char, l = a ++ '.' :: b ∧ stemOfChars l = a ∧ a ≠ [] ∧ b ≠ [] := by
  unfold stemOfChars
  cases hdw : l.reverse.dropWhile (fun c => !(c == '.')) with
  | nil => left; rfl
  | cons c a =>
    have hc : c = '.' := by
      have hfalse := dropWhile_head_false (fun c => !(c == '.')) l.reverse c a hdw
      simpa using hfalse
    subst hc
    by_cases ha : a = []
    · left; simp [ha]
    · by_cases hb : l.reverse.takeWhile (fun c => !(c == '.')) = []
      · left; simp [ha, hb]
      · right
        have hsplit : l.reverse.takeWhile (fun c => !(c == '.')) ++ '.' :: a = l.reverse := by
          conv_rhs => rw [← List.takeWhile_append_dropWhile (p := fun c => !(c == '.'))
            (l := l.reverse)]
          rw [hdw]
        refine ⟨a.reverse, (l.reverse.takeWhile (fun c => !(c == '.'))).reverse,
          ?_, by simp [ha, hb], by simp [ha], by simp [hb]⟩
        have hrev := congrArg List.reverse hsplit
        rw [List.reverse_reverse] at hrev
        exact hrev.symm.trans (by simp)

theorem artifactName_data (name target : String) :
    (artifactName name target).data =
      stemOfChars name.data ++ '_' :: (target.data ++ ['.', 'm', 'd']) := by
  show ((stemOf name ++ "_" ++ target ++ ".md").data) = _
  rw [String.data_append, String.data_append, String.data_append]
  have h1 : ("_" : String).data = ['_'] := rfl
  have h2 : (".md" : String).data = ['.', 'm', 'd'] := rfl
  rw [h1, h2]
  simp [stemOf]

theorem artifactName_ne (name target : String) : artifactName name target ≠ name := by
  intro hEq
  have hdata : (artifactName name target).data = name.data := by rw [hEq]
  rw [artifactName_data] at hdata
  rcases stemOfChars_cases name.data with hst | ⟨a, b, hab, hst, ha, hb⟩
  · rw [hst] at hdata
    have hlen := congrArg List.length hdata
    simp at hlen
  · rw [hst] at hdata
    have hx : a ++ '_' :: (target.data ++ ['.', 'm', 'd']) = a ++ '.' :: b := by
      rw [hdata, hab]
    have hy := List.append_cancel_left hx
    injection hy with hy1 hy2
    exact absurd hy1 (by decide)

theorem translateFileModel_ok_path (cfg : Config) (wrapFn : String → String)
    (backend : String → Option String) (fs : FS) (f : FPath) (od : String)
    (pv nx : Option FPath) (p : FPath) (v : String)
    (h : (translateFileModel cfg wrapFn backend fs f od pv nx).result = .ok (p, v)) :
    p = ⟨od, artifactName f.name cfg.targetLang⟩ := by
  unfold translateFileModel at h
  split at h
  · exact absurd h (by simp)
  · split at h
    · exact absurd h (by simp)
    · split at h
      · dsimp only at h
        split at h
        · exact absurd h (by simp)
        · simp only [Except.ok.injEq, Prod.mk.injEq] at h
          exact h.1.symm
      · dsimp only at h
        split at h
        · exact absurd h (by simp)
        · simp only [Except.ok.injEq, Prod.mk.injEq] at h
          exact h.1.symm

theorem runChunk_fs_shape (cfg : Config) (wrapFn : String → String)
    (backend : String → Option String) (st : BatchState) (f : FPath) :
    (runChunk cfg wrapFn backend st f).fs = st.fs ∨
      ∃ v, (runChunk cfg wrapFn backend st f).fs =
        writeFS st.fs ⟨cfg.outputDir.getD f.dir, artifactName f.name cfg.targetLang⟩ v := by
  unfold runChunk
  cases hres : (translateFileModel cfg wrapFn backend st.fs f (cfg.outputDir.getD f.dir)
      (neighborsOf st.fs cfg.inputDir cfg.targetLang cfg.contextLines f).1
      (neighborsOf st.fs cfg.inputDir cfg.targetLang cfg.contextLines f).2).result with
  | error e => left; simp [hres]
  | ok pv =>
    right
    refine ⟨pv.2, ?_⟩
    have hp : pv.1 = ⟨cfg.outputDir.getD f.dir, artifactName f.name cfg.targetLang⟩ :=
      translateFileModel_ok_path cfg wrapFn backend st.fs f (cfg.outputDir.getD f.dir) _ _
        pv.1 pv.2 (by rw [hres])
    rw [← hp]
    simp [hres]

/-- Claim C10: for every successful job on a source file with stem S and
target language T, the output artifact is named exactly `{S}_{T}.md` and
written into the job's output directory (the configured one, defaulting to
the source chunk's own directory); the artifact name never equals the
source name, so the source is never overwritten — in particular
translating `chapter3.md` to French produces exactly `chapter3_French.md`
and never overwrites `chapter3.md`. -/
theorem c10_artifact_naming :
    (∀ (name target : String), artifactName name target ≠ name) ∧
    (∀ (cfg : Config) (wrapFn : String → String) (backend : String → Option String)
        (st : BatchState) (f : FPath),
      (runChunk cfg wrapFn backend st f).fs = st.fs ∨
        ∃ v, (runChunk cfg wrapFn backend st f).fs =
          writeFS st.fs ⟨cfg.outputDir.getD f.dir, artifactName f.name cfg.targetLang⟩ v) ∧
    artifactName "chapter3.md" "French" = "chapter3_French.md" ∧
    artifactName "chapter3.md" "French" ≠ "chapter3.md" :=
  ⟨artifactName_ne, runChunk_fs_shape, by decide, artifactName_ne "chapter3.md" "French"⟩

/-- Witness for C10: the artifact of `a.md` under target `x` is `a_x.md`,
distinct from `a.md` itself. -/
theorem c10_artifact_naming_witness :
    artifactName "a.md" "x" = "a_x.md" ∧ artifactName "a.md" "x" ≠ "a.md" :=
  ⟨by decide, c10_artifact_naming.1 "a.md" "x"⟩

/-! ### Claim C3 -/

/-- The path names present in a filesystem. -/
def namesOf (fs : FS) : List FPath := fs.map Prod.fst

theorem readFS_writeFS_self (fs : FS) (p : FPath) (v : String) :
    readFS (writeFS fs p v) p = some v := by
  simp [readFS, writeFS, List.find?_cons]

theorem find?_filter_ne (fs : FS) (p q : FPath) (hne : q ≠ p) :
    (fs.filter (fun e => !(e.1 == p))).find? (fun e => e.1 == q) =
      fs.find? (fun e => e.1 == q) := by
  induction fs with
  | nil => rfl
  | cons e t ih =>
    by_cases he : e.1 = p
    · have h1 : (!(e.1 == p)) = false := by simp [he]
      have h2 : (e.1 == q) = false := by simp [he]; intro hq; exact absurd hq.symm hne
      rw [List.filter_cons, h1]
      rw [List.find?_cons, h2]
      simpa using ih
    · have h1 : (!(e.1 == p)) = true := by simp [he]
      rw [List.filter_cons, if_pos h1]
      simp only [List.find?_cons]
      cases hq : (e.1 == q) with
      | true => rfl
      | false => exact ih

theorem readFS_writeFS_ne (fs : FS) (p q : FPath) (v : String) (hne : q ≠ p) :
    readFS (writeFS fs p v) q = readFS fs q := by
  unfold readFS writeFS
  rw [List.find?_cons]
  have h2 : (p == q) = false := by simp; intro hq; exact absurd hq.symm hne
  rw [h2, find?_filter_ne fs p q hne]

theorem existsFS_writeFS_mono (fs : FS) (p q : FPath) (v : String)
    (h : existsFS fs q = true) : existsFS (writeFS fs p v) q = true := by
  by_cases hq : q = p
  · subst hq; simp [existsFS, readFS_writeFS_self]
  · unfold existsFS
    rw [readFS_writeFS_ne fs p q v hq]
    exact h

theorem mem_namesOf_writeFS_mono (fs : FS) (p q : FPath) (v : String)
    (h : q ∈ namesOf fs) : q ∈ namesOf (writeFS fs p v) := by
  by_cases hq : q = p
  · subst hq; simp [namesOf, writeFS]
  · simp only [namesOf, writeFS, List.map_cons, List.mem_cons]
    right
    obtain ⟨e, he, hfst⟩ := List.mem_map.mp h
    refine List.mem_map.mpr ⟨e, ?_, hfst⟩
    refine List.mem_filter.mpr ⟨he, ?_⟩
    simp [hfst, hq]

theorem mem_namesOf_writeFS (fs : FS) (p q : FPath) (v : String)
    (h : q ∈ namesOf (writeFS fs p v)) : q = p ∨ q ∈ namesOf fs := by
  simp only [namesOf, writeFS, List.map_cons, List.mem_cons] at h
  rcases h with h | h
  · exact Or.inl h
  · right
    obtain ⟨e, he, hfst⟩ := List.mem_map.mp h
    exact List.mem_map.mpr ⟨e, (List.mem_filter.mp he).1, hfst⟩

theorem existsFS_iff_mem_namesOf (fs : FS) (q : FPath) :
    existsFS fs q = true ↔ q ∈ namesOf fs := by
  unfold existsFS readFS namesOf
  rw [Option.isSome_map']
  rw [List.find?_isSome]
  constructor
  · rintro ⟨e, he, heq⟩
    exact List.mem_map.mpr ⟨e, he, by simpa using heq⟩
  · intro h
    obtain ⟨e, he, hfst⟩ := List.mem_map.mp h
    exact ⟨e, he, by simp [hfst]⟩

theorem mem_pyInsert {lt : α → α → Bool} {x y : α} {l : List α} :
    x ∈ pyInsert lt y l ↔ x = y ∨ x ∈ l := by
  induction l with
  | nil => simp [pyInsert]
  | cons z t ih =>
    simp only [pyInsert]
    by_cases h : lt y z = true
    · simp [h]
    · rw [if_neg h]
      simp only [List.mem_cons, ih]
      tauto

theorem mem_pySortBy {lt : α → α → Bool} {x : α} :
    ∀ {l : List α}, x ∈ pySortBy lt l ↔ x ∈ l := by
  have main : ∀ (l acc : List α),
      x ∈ l.foldl (fun acc y => pyInsert lt y acc) acc ↔ x ∈ acc ∨ x ∈ l := by
    intro l
    induction l with
    | nil => intro acc; simp
    | cons y t ih =>
      intro acc
      rw [List.foldl_cons, ih, mem_pyInsert]
      simp only [List.mem_cons]
      tauto
  intro l
  rw [pySortBy, main]
  simp

theorem mem_sortedMd {fs : FS} {dir : String} {f : FPath} :
    f ∈ sortedMd fs dir ↔
      f ∈ namesOf fs ∧ f.dir = dir ∧ endsWithPy f.name ".md" = true := by
  unfold sortedMd sortNatural globMd
  rw [mem_pySortBy, List.mem_filter]
  simp only [Bool.and_eq_true, beq_iff_eq]
  exact ⟨fun ⟨h1, h2, h3⟩ => ⟨h1, h2, h3⟩, fun ⟨h1, h2, h3⟩ => ⟨h1, h2, h3⟩⟩

theorem stemOfChars_append_ext (l : List Char) (h : l ≠ []) :
    stemOfChars (l ++ ['.', 'm', 'd']) = l := by
  unfold stemOfChars
  have hrev : (l ++ ['.', 'm', 'd']).reverse = 'd' :: 'm' :: '.' :: l.reverse := by simp
  rw [hrev]
  have hdw : List.dropWhile (fun c => !(c == '.')) ('d' :: 'm' :: '.' :: l.reverse) =
      '.' :: l.reverse := rfl
  have htw : List.takeWhile (fun c => !(c == '.')) ('d' :: 'm' :: '.' :: l.reverse) =
      ['d', 'm'] := rfl
  rw [hdw, htw]
  simp [List.reverse_eq_nil_iff, h]

theorem stemOf_artifactName (n T : String) :
    stemOf (artifactName n T) = stemOf n ++ "_" ++ T := by
  apply String.ext
  show stemOfChars (artifactName n T).data = (stemOf n ++ "_" ++ T).data
  rw [artifactName_data]
  have hshape : stemOfChars n.data ++ '_' :: (T.data ++ ['.', 'm', 'd']) =
      (stemOfChars n.data ++ '_' :: T.data) ++ ['.', 'm', 'd'] := by simp
  rw [hshape, stemOfChars_append_ext _ (by simp)]
  rw [String.data_append, String.data_append]
  show stemOfChars n.data ++ '_' :: T.data = stemOfChars n.data ++ ['_'] ++ T.data
  simp

theorem endsWithPy_append (s t : String) : endsWithPy (s ++ t) t = true := by
  unfold endsWithPy
  rw [String.data_append]
  simp [List.isSuffixOf_iff_suffix]

theorem skipChunk_artifact (fs : FS) (T : String) (g : FPath) (d : String) :
    skipChunk fs T ⟨d, artifactName g.name T⟩ = true := by
  unfold skipChunk
  rw [Bool.or_eq_true]
  left
  show endsWithPy (stemOf (artifactName g.name T)) ("_" ++ T) = true
  rw [stemOf_artifactName]
  have hassoc : stemOf g.name ++ "_" ++ T = stemOf g.name ++ ("_" ++ T) := by
    rw [String.append_assoc]
  rw [hassoc]
  exact endsWithPy_append _ _

theorem translateFileModel_ok_of (cfg : Config) (wrapFn : String → String)
    (backend : String → Option String) (fs : FS) (f : FPath) (od : String)
    (pv nx : Option FPath)
    (hdict : ∃ dtext, loadDictModel cfg.dict = .ok dtext)
    (hkey : cfg.apiKeyPresent = true)
    (hb : ∀ p, blankOpt (backend p) = false) :
    ∃ v ds, translateFileModel cfg wrapFn backend fs f od pv nx =
      ⟨.ok (⟨od, artifactName f.name cfg.targetLang⟩, v), ds⟩ := by
  obtain ⟨dtext, hd⟩ := hdict
  have hdisp : ∀ text, ∃ t,
      (dispatchModel cfg.provider backend text cfg.prompt dtext).2 = .ok t := by
    intro text
    cases cfg.provider with
    | claude =>
      have hblank := hb (cfg.prompt ++ "\n" ++ dtext ++ "\n## Text to Translate:\n\n" ++ text)
      simp only [dispatchModel, translateWithClaudeM]
      cases hbe : backend (cfg.prompt ++ "\n" ++ dtext ++ "\n## Text to Translate:\n\n" ++ text)
          with
      | none => rw [hbe] at hblank; exact absurd hblank (by simp [blankOpt])
      | some t =>
        rw [hbe] at hblank
        simp only [blankOpt] at hblank
        exact ⟨t, by simp [hblank]⟩
    | openai =>
      have hblank := hb (cfg.prompt ++ "\n" ++ dtext ++ "\n## Text to Translate:\n\n" ++ text)
      simp only [dispatchModel, translateWithOpenaiM]
      cases hbe : backend (cfg.prompt ++ "\n" ++ dtext ++ "\n## Text to Translate:\n\n" ++ text)
          with
      | none => rw [hbe] at hblank; exact absurd hblank (by simp [blankOpt])
      | some t =>
        rw [hbe] at hblank
        simp only [blankOpt] at hblank
        exact ⟨t, by simp [hblank]⟩
  obtain ⟨t, ht⟩ :=
    hdisp (assembleContent fs cfg.contextLines pv nx ((readFS fs f).getD ""))
  unfold translateFileModel
  simp only [hd, hkey]
  rw [ht]
  exact ⟨_, _, rfl⟩

theorem runChunk_ok_of (cfg : Config) (wrapFn : String → String)
    (backend : String → Option String) (st : BatchState) (f : FPath)
    (ho : cfg.outputDir = none)
    (hdict : ∃ dtext, loadDictModel cfg.dict = .ok dtext)
    (hkey : cfg.apiKeyPresent = true)
    (hb : ∀ p, blankOpt (backend p) = false) :
    ∃ v ds, runChunk cfg wrapFn backend st f =
      ⟨writeFS st.fs ⟨f.dir, artifactName f.name cfg.targetLang⟩ v, st.processed + 1,
        st.failed, st.dispatched ++ ds, st.results ++ [true]⟩ := by
  obtain ⟨v, ds, htf⟩ := translateFileModel_ok_of cfg wrapFn backend st.fs f
    (cfg.outputDir.getD f.dir)
    (neighborsOf st.fs cfg.inputDir cfg.targetLang cfg.contextLines f).1
    (neighborsOf st.fs cfg.inputDir cfg.targetLang cfg.contextLines f).2 hdict hkey hb
  refine ⟨v, ds, ?_⟩
  unfold runChunk
  simp only [htf]
  simp [ho]

theorem foldl_runChunk_ok_invariants (cfg : Config) (wrapFn : String → String)
    (backend : String → Option String)
    (ho : cfg.outputDir = none)
    (hdict : ∃ dtext, loadDictModel cfg.dict = .ok dtext)
    (hkey : cfg.apiKeyPresent = true)
    (hb : ∀ p, blankOpt (backend p) = false) :
    ∀ (l : List FPath) (st : BatchState),
      (∀ q, q ∈ namesOf st.fs →
        q ∈ namesOf (l.foldl (runChunk cfg wrapFn backend) st).fs) ∧
      (∀ q, existsFS st.fs q = true →
        existsFS (l.foldl (runChunk cfg wrapFn backend) st).fs q = true) ∧
      (∀ f ∈ l, existsFS (l.foldl (runChunk cfg wrapFn backend) st).fs
        ⟨f.dir, artifactName f.name cfg.targetLang⟩ = true) ∧
      (∀ q, q ∈ namesOf (l.foldl (runChunk cfg wrapFn backend) st).fs →
        q ∈ namesOf st.fs ∨ ∃ g ∈ l, q = ⟨g.dir, artifactName g.name cfg.targetLang⟩) := by
  intro l
  induction l with
  | nil =>
    intro st
    exact ⟨fun q h => h, fun q h => h, fun f hf => absurd hf (List.not_mem_nil f),
      fun q h => Or.inl h⟩
  | cons f t ih =>
    intro st
    obtain ⟨v, ds, hrc⟩ := runChunk_ok_of cfg wrapFn backend st f ho hdict hkey hb
    obtain ⟨ih1, ih2, ih3, ih4⟩ := ih (runChunk cfg wrapFn backend st f)
    have hfs : (runChunk cfg wrapFn backend st f).fs =
        writeFS st.fs ⟨f.dir, artifactName f.name cfg.targetLang⟩ v := by rw [hrc]
    rw [List.foldl_cons]
    refine ⟨?_, ?_, ?_, ?_⟩
    · intro q hq
      exact ih1 q (by rw [hfs]; exact mem_namesOf_writeFS_mono st.fs _ q v hq)
    · intro q hq
      exact ih2 q (by rw [hfs]; exact existsFS_writeFS_mono st.fs _ q v hq)
    · intro g hg
      rcases List.mem_cons.mp hg with hg | hg
      · subst hg
        refine ih2 _ ?_
        rw [hfs]
        simp [existsFS, readFS_writeFS_self]
      · exact ih3 g hg
    · intro q hq
      rcases ih4 q hq with hq' | ⟨g, hg, hgq⟩
      · rw [hfs] at hq'
        rcases mem_namesOf_writeFS st.fs _ q v hq' with hq'' | hq''
        · exact Or.inr ⟨f, List.mem_cons_self f t, hq''⟩
        · exact Or.inl hq''
      · exact Or.inr ⟨g, List.mem_cons_of_mem f hg, hgq⟩

def c3Fs : FS := [(⟨"in", "c1.md"⟩, "one\n")]

def c3Cfg : Config := ⟨"in", some "out", .claude, "French", "P", 0, none, true, false, 120⟩

/-- Counterexample to claim C3: with the same configuration including a
configured output directory `out` different from the input directory `in`,
the first run writes the artifact into `out`, but the completion check of
the second run looks for it next to the chunk (in `in`), so the second run
dispatches the chunk AGAIN (1 dispatch, not 0): idempotence fails for a
custom output directory. -/
theorem c3_counterexample :
    (runBatch c3Cfg id (fun _ => some "T") c3Fs).dispatched.length = 1 ∧
    existsFS (runBatch c3Cfg id (fun _ => some "T") c3Fs).fs ⟨"out", "c1_French.md"⟩ = true ∧
    (runBatch c3Cfg id (fun _ => some "T")
        (runBatch c3Cfg id (fun _ => some "T") c3Fs).fs).dispatched.length = 1 := by
  refine ⟨by decide, by decide, by decide⟩

/-- Claim C3 as amended: running the batch orchestrator a second time on
the same input directory with the same target language and configuration
dispatches zero translation jobs — provided the output directory is the
DEFAULT one (each chunk's own directory, `output_dir = None`) and the
first run's jobs succeed (API key present, dictionary well-formed, backend
never blank): the completion check then finds every artifact written by
the first run next to its chunk and skips every chunk. -/
theorem c3_amended (cfg : Config) (wrapFn : String → String)
    (backend : String → Option String) (fs₀ : FS)
    (ho : cfg.outputDir = none)
    (hdict : ∃ dtext, loadDictModel cfg.dict = .ok dtext)
    (hkey : cfg.apiKeyPresent = true)
    (hb : ∀ p, blankOpt (backend p) = false) :
    (runBatch cfg wrapFn backend (runBatch cfg wrapFn backend fs₀).fs).dispatched = [] ∧
    (runBatch cfg wrapFn backend (runBatch cfg wrapFn backend fs₀).fs).processed = 0 ∧
    (runBatch cfg wrapFn backend (runBatch cfg wrapFn backend fs₀).fs).failed = 0 := by
  by_cases h1 : sortedMd fs₀ cfg.inputDir = []
  · have hfs : (runBatch cfg wrapFn backend fs₀).fs = fs₀ := by simp [runBatch, h1]
    rw [hfs]
    simp [runBatch, h1]
  · by_cases h2 : pendingOf fs₀ cfg.inputDir cfg.targetLang = []
    · have hfs : (runBatch cfg wrapFn backend fs₀).fs = fs₀ := by simp [runBatch, h1, h2]
      rw [hfs]
      simp [runBatch, h1, h2]
    · have hfs1 : (runBatch cfg wrapFn backend fs₀).fs =
          ((pendingOf fs₀ cfg.inputDir cfg.targetLang).foldl (runChunk cfg wrapFn backend)
            ⟨fs₀, 0, 0, [], []⟩).fs := by
        simp [runBatch, h1, h2]
      obtain ⟨inv1, inv2, inv3, inv4⟩ := foldl_runChunk_ok_invariants cfg wrapFn backend ho
        hdict hkey hb (pendingOf fs₀ cfg.inputDir cfg.targetLang) ⟨fs₀, 0, 0, [], []⟩
      rw [hfs1]
      set fs₁ := ((pendingOf fs₀ cfg.inputDir cfg.targetLang).foldl
        (runChunk cfg wrapFn backend) ⟨fs₀, 0, 0, [], []⟩).fs with hfs₁def
      have hpend1 : pendingOf fs₁ cfg.inputDir cfg.targetLang = [] := by
        unfold pendingOf
        rw [List.filter_eq_nil_iff]
        intro f hfmem
        obtain ⟨hnames, hdir, hmd⟩ := mem_sortedMd.mp hfmem
        have hskip1 : skipChunk fs₁ cfg.targetLang f = true := by
          rcases inv4 f hnames with hold | ⟨g, hg, hgq⟩
          · have hf0 : f ∈ sortedMd fs₀ cfg.inputDir := mem_sortedMd.mpr ⟨hold, hdir, hmd⟩
            by_cases hskip : skipChunk fs₀ cfg.targetLang f = true
            · unfold skipChunk at hskip ⊢
              rw [Bool.or_eq_true] at hskip ⊢
              rcases hskip with hs | hs
              · exact Or.inl hs
              · exact Or.inr (inv2 _ hs)
            · have hfp : f ∈ pendingOf fs₀ cfg.inputDir cfg.targetLang :=
                List.mem_filter.mpr ⟨hf0, by simp [Bool.eq_false_iff.mpr hskip]⟩
              unfold skipChunk
              rw [Bool.or_eq_true]
              right
              exact inv3 f hfp
          · rw [hgq]
            exact skipChunk_artifact fs₁ cfg.targetLang g g.dir
        simp [hskip1]
      have hne1 : sortedMd fs₁ cfg.inputDir ≠ [] := by
        obtain ⟨f, hf⟩ := List.exists_mem_of_ne_nil _ h2
        have hf0 : f ∈ sortedMd fs₀ cfg.inputDir := (List.mem_filter.mp hf).1
        obtain ⟨hnames, hdir, hmd⟩ := mem_sortedMd.mp hf0
        have : f ∈ sortedMd fs₁ cfg.inputDir :=
          mem_sortedMd.mpr ⟨inv1 f hnames, hdir, hmd⟩
        exact List.ne_nil_of_mem this
      simp [runBatch, hne1, hpend1]

/-- Witness for C3's amended statement: a 1-chunk directory with the
default output directory is fully skipped on the second run. -/
theorem c3_amended_witness :
    (runBatch ⟨"in", none, .claude, "French", "P", 0, none, true, false, 120⟩ id
      (fun _ => some "T")
      (runBatch ⟨"in", none, .claude, "French", "P", 0, none, true, false, 120⟩ id
        (fun _ => some "T") [(⟨"in", "c1.md"⟩, "one\n")]).fs).dispatched = [] ∧
    (runBatch ⟨"in", none, .claude, "French", "P", 0, none, true, false, 120⟩ id
      (fun _ => some "T")
      (runBatch ⟨"in", none, .claude, "French", "P", 0, none, true, false, 120⟩ id
        (fun _ => some "T") [(⟨"in", "c1.md"⟩, "one\n")]).fs).processed = 0 :=
  ⟨(c3_amended ⟨"in", none, .claude, "French", "P", 0, none, true, false, 120⟩ id
      (fun _ => some "T") [(⟨"in", "c1.md"⟩, "one\n")] rfl ⟨"", rfl⟩ rfl
      (by
        intro p
        show blankOpt (some "T") = false
        decide)).1,
   (c3_amended ⟨"in", none, .claude, "French", "P", 0, none, true, false, 120⟩ id
      (fun _ => some "T") [(⟨"in", "c1.md"⟩, "one\n")] rfl ⟨"", rfl⟩ rfl
      (by
        intro p
        show blankOpt (some "T") = false
        decide)).2.1⟩

/-! ### Claim C7 -/

/-- The first character of `l` (if any) is not a digit — the condition for
a digit run to be maximal when followed by `l`. -/
def headNotDigit (l : List Char) : Prop := ∀ c ∈ l.take 1, c.isDigit = false

theorem reSplitDigits_ne_nil : ∀ l : List Char, reSplitDigits l ≠ [] := by
  intro l
  cases l with
  | nil => simp [reSplitDigits]
  | cons c cs =>
    unfold reSplitDigits
    cases reSplitDigits cs with
    | nil => simp
    | cons r rs =>
      by_cases hc : c.isDigit = true
      · simp only [hc, if_true]
        cases r <;> cases rs <;> simp
      · simp [hc]

theorem reSplit_cons_nondigit (c : Char) (hc : c.isDigit = false) (l : List Char)
    (r : List Char) (rs : List (List Char)) (h : reSplitDigits l = r :: rs) :
    reSplitDigits (c :: l) = (c :: r) :: rs := by
  rw [reSplitDigits, h]
  simp [hc]

theorem reSplit_cons_digit (c : Char) (hc : c.isDigit = true) (q : List Char)
    (hq : headNotDigit q) :
    reSplitDigits (c :: q) = [] :: [c] :: reSplitDigits q := by
  cases q with
  | nil => simp [reSplitDigits, hc]
  | cons c' q' =>
    have hc' : c'.isDigit = false := hq c' (by simp)
    obtain ⟨r, rs, hr⟩ : ∃ r rs, reSplitDigits q' = r :: rs := by
      cases hrq : reSplitDigits q' with
      | nil => exact absurd hrq (reSplitDigits_ne_nil q')
      | cons a b => exact ⟨a, b, rfl⟩
    have h1 : reSplitDigits (c' :: q') = (c' :: r) :: rs :=
      reSplit_cons_nondigit c' hc' q' r rs hr
    rw [reSplitDigits, h1]
    simp [hc]

theorem reSplit_append_nondigit :
    ∀ (p l r : List Char) (rs : List (List Char)), (∀ c ∈ p, c.isDigit = false) →
      reSplitDigits l = r :: rs → reSplitDigits (p ++ l) = (p ++ r) :: rs := by
  intro p
  induction p with
  | nil => intro l r rs hp h; simpa using h
  | cons c p' ih =>
    intro l r rs hp h
    have hc : c.isDigit = false := hp c (List.mem_cons_self c p')
    have h2 := ih l r rs (fun x hx => hp x (List.mem_cons_of_mem c hx)) h
    have h3 := reSplit_cons_nondigit c hc (p' ++ l) (p' ++ r) rs h2
    simpa using h3

theorem reSplit_append_digits :
    ∀ (d q : List Char), d ≠ [] → (∀ c ∈ d, c.isDigit = true) → headNotDigit q →
      reSplitDigits (d ++ q) = [] :: d :: reSplitDigits q := by
  intro d
  induction d with
  | nil => intro q hne; exact absurd rfl hne
  | cons c d' ih =>
    intro q hne hall hq
    have hc : c.isDigit = true := hall c (List.mem_cons_self c d')
    by_cases hd' : d' = []
    · subst hd'
      simpa using reSplit_cons_digit c hc q hq
    · have hall' : ∀ x ∈ d', x.isDigit = true := fun x hx => hall x (List.mem_cons_of_mem c hx)
      have h2 := ih q hd' hall' hq
      rw [List.cons_append, reSplitDigits, h2]
      simp [hc]

theorem naturalKeyChars_split (p d q : List Char) (hp : ∀ c ∈ p, c.isDigit = false)
    (hd : d ≠ []) (hall : ∀ c ∈ d, c.isDigit = true) (hq : headNotDigit q) :
    naturalKeyChars (p ++ d ++ q) =
      KeyElem.str (p.map Char.toLower) :: KeyElem.num (digitsVal d) ::
        (reSplitDigits q).map runElem := by
  have h1 : reSplitDigits (d ++ q) = [] :: d :: reSplitDigits q :=
    reSplit_append_digits d q hd hall hq
  have h2 : reSplitDigits (p ++ (d ++ q)) = (p ++ []) :: d :: reSplitDigits q :=
    reSplit_append_nondigit p (d ++ q) [] (d :: reSplitDigits q) hp h1
  rw [List.append_assoc, naturalKeyChars, h2]
  simp only [List.append_nil, List.map_cons]
  congr 1
  · unfold runElem
    rw [if_neg]
    rintro ⟨hne, hall'⟩
    obtain ⟨c, hc⟩ := List.exists_mem_of_ne_nil p hne
    have hdig := (List.all_eq_true.mp hall') c hc
    rw [hp c hc] at hdig
    exact Bool.noConfusion hdig
  · congr 1
    unfold runElem
    rw [if_pos ⟨hd, List.all_eq_true.mpr (fun c hc => hall c hc)⟩]

theorem charListLt_irrefl : ∀ l : List Char, charListLt l l = false := by
  intro l
  induction l with
  | nil => rfl
  | cons c t ih =>
    unfold charListLt
    rw [if_neg (lt_irrefl c), if_neg (lt_irrefl c)]
    exact ih

theorem keyElemLt_irrefl : ∀ e : KeyElem, keyElemLt e e = false := by
  intro e
  cases e with
  | str cs => simpa [keyElemLt] using charListLt_irrefl cs
  | num v => simp [keyElemLt]

theorem keyLt_of_digit_lt (p d₁ d₂ q₁ q₂ : List Char)
    (hp : ∀ c ∈ p, c.isDigit = false)
    (hd₁ : d₁ ≠ []) (hd₂ : d₂ ≠ [])
    (hall₁ : ∀ c ∈ d₁, c.isDigit = true) (hall₂ : ∀ c ∈ d₂, c.isDigit = true)
    (hq₁ : headNotDigit q₁) (hq₂ : headNotDigit q₂)
    (hlt : digitsVal d₁ < digitsVal d₂) :
    keyLtList (naturalKeyChars (p ++ d₁ ++ q₁)) (naturalKeyChars (p ++ d₂ ++ q₂)) = true := by
  rw [naturalKeyChars_split p d₁ q₁ hp hd₁ hall₁ hq₁,
    naturalKeyChars_split p d₂ q₂ hp hd₂ hall₂ hq₂]
  have hirr := keyElemLt_irrefl (KeyElem.str (p.map Char.toLower))
  have hnum : keyElemLt (KeyElem.num (digitsVal d₁)) (KeyElem.num (digitsVal d₂)) = true := by
    simp [keyElemLt, hlt]
  simp [keyLtList, hirr, hnum]

theorem naturalSortKey_nodigit (s : String) (h : ∀ c ∈ s.data, c.isDigit = false) :
    naturalSortKey s = [KeyElem.str (s.data.map Char.toLower)] := by
  unfold naturalSortKey naturalKeyChars
  have h0 : reSplitDigits ([] : List Char) = [] :: [] := rfl
  have h1 : reSplitDigits (s.data ++ []) = (s.data ++ []) :: [] :=
    reSplit_append_nondigit s.data [] [] [] h h0
  rw [List.append_nil] at h1
  rw [h1]
  simp only [List.map_cons, List.map_nil]
  congr 1
  unfold runElem
  rw [if_neg]
  rintro ⟨hne, hall'⟩
  obtain ⟨c, hc⟩ := List.exists_mem_of_ne_nil s.data hne
  have h2 := (List.all_eq_true.mp hall') c hc
  rw [h c hc] at h2
  exact Bool.noConfusion h2

/-- Claim C7: the natural sort key decomposes a name into alternating
non-digit and digit runs; digit runs compare numerically by value (two
names sharing a non-digit prefix and differing in the following digit run
order by the runs' numeric values), a name with no digits yields the
single-component key of its lowercased text (pure case-insensitive lexical
fallback), and the names `c1.md`, `c2.md`, `c10.md` sort in exactly that
order. -/
theorem c7_natural_sort_order :
    (sortNatural [⟨"d", "c2.md"⟩, ⟨"d", "c10.md"⟩, ⟨"d", "c1.md"⟩] =
      [⟨"d", "c1.md"⟩, ⟨"d", "c2.md"⟩, ⟨"d", "c10.md"⟩]) ∧
    (∀ p d₁ d₂ q₁ q₂ : List Char, (∀ c ∈ p, c.isDigit = false) → d₁ ≠ [] → d₂ ≠ [] →
      (∀ c ∈ d₁, c.isDigit = true) → (∀ c ∈ d₂, c.isDigit = true) →
      headNotDigit q₁ → headNotDigit q₂ → digitsVal d₁ < digitsVal d₂ →
      keyLtList (naturalKeyChars (p ++ d₁ ++ q₁)) (naturalKeyChars (p ++ d₂ ++ q₂)) = true) ∧
    (∀ s : String, (∀ c ∈ s.data, c.isDigit = false) →
      naturalSortKey s = [KeyElem.str (s.data.map Char.toLower)]) :=
  ⟨by decide, keyLt_of_digit_lt, naturalSortKey_nodigit⟩

/-- Witness for C7: the key of `c2.md` compares below the key of `c10.md`
(2 < 10 numerically, although "10" < "2" lexically), and the digit-free
name `abc` still yields a valid (purely lexical) key. -/
theorem c7_natural_sort_order_witness :
    keyLtList (naturalKeyChars ("c".data ++ "2".data ++ ".md".data))
      (naturalKeyChars ("c".data ++ "10".data ++ ".md".data)) = true ∧
    naturalSortKey "abc" = [KeyElem.str ("abc".data.map Char.toLower)] :=
  ⟨c7_natural_sort_order.2.1 "c".data "2".data "10".data ".md".data ".md".data (by decide)
    (by decide) (by decide) (by decide) (by decide) (by unfold headNotDigit; decide)
    (by unfold headNotDigit; decide) (by decide),
   c7_natural_sort_order.2.2 "abc" (by decide)⟩
